import Mathlib

/-!
Shallow embedding of the cube loading, concatenation and persistence module
of the repository (the preprocessor `_io.py` module), together with proofs
of the specified properties.

Modelling conventions:
- a cube is a record of the pieces of state the module touches: its
  attribute map (an insertion-ordered association list, as a Python dict),
  its optional time coordinate, its shape, its coordinate-to-dimension
  mapping and its lazy-data flag;
- attribute values are a tagged variant (string, integer, numeric array,
  string list) with structural equality standing for numpy array_equal;
- time points are integers in the units of the coordinate, and the
  num2date conversion of the units is an affine shift by an epoch, so a
  calendar date is modelled as the integer epoch + point;
- Python exceptions are records of the exception class name and message;
- the external collaborators (the iris load, concatenate and
  concatenate_cube primitives and the time extraction utility) are
  function parameters of the embedded operations;
- logging is modelled by returning the list of emitted log entries.
-/

namespace Esm

/-- Attribute values: string, number, numeric array, or list of strings.
Structural equality of these variants models numpy array_equal on the
corresponding Python values. -/
inductive Value where
  | str (s : String)
  | int (n : Int)
  | arr (l : List Int)
  | strs (l : List String)
deriving DecidableEq, Repr

/-- Rendering of a value, modelling the Python str() conversion used when
divergent attribute values are joined into a delimited string. -/
def Value.toStr : Value → String
  | .str s => s
  | .int n => toString n
  | .arr l => toString l
  | .strs l => toString l

/-- Assignment d[k] = v on an insertion-ordered dictionary represented as
an association list: the value of the first entry holding the key is
replaced in place, otherwise the new entry is appended at the end. -/
def upsert {β : Type} : List (String × β) → String → β → List (String × β)
  | [], k, v => [(k, v)]
  | (k₀, v₀) :: rest, k, v =>
    if k₀ == k then (k₀, v) :: rest else (k₀, v₀) :: upsert rest k v

/-- A time coordinate: raw points in the units of the coordinate, and the
epoch of the units, so that the calendar date of a point t is epoch + t. -/
structure TimeCoord where
  epoch : Int
  points : List Int
deriving DecidableEq, Repr

/-- The calendar date of the first time point (cell 0 of the coordinate). -/
def startDate (t : TimeCoord) : Int := t.epoch + t.points.headD 0

/-- The calendar date of the last time point (cell -1 of the coordinate). -/
def endDate (t : TimeCoord) : Int := t.epoch + t.points.getLastD 0

/-- A cube: the attribute dictionary, the optional time coordinate, the
shape, the mapping from coordinate names to data dimensions, and whether
the bulk data is still lazy. -/
structure Cube where
  attributes : List (String × Value)
  time : Option TimeCoord
  shape : List Nat
  coord_dims_map : List (String × List Nat)
  has_lazy_data : Bool
deriving DecidableEq, Repr

instance : Inhabited Cube := ⟨⟨[], none, [], [], false⟩⟩

/-- The time coordinate of a cube that is known to have one. -/
def Cube.timeD (c : Cube) : TimeCoord := c.time.getD ⟨0, []⟩

/-- Rendering of a cube, modelling the Python str() of a cube used in log
messages. -/
def cubeStr (c : Cube) : String := reprStr c.shape ++ reprStr c.attributes

/-- A raised Python exception: the exception class name and the message. -/
structure PyExc where
  cls : String
  msg : String
deriving DecidableEq, Repr

/-- Level of an emitted log entry. -/
inductive LogLevel where
  | debug
  | error
deriving DecidableEq, Repr

/-- A log entry: its level and its message. -/
def LogEntry : Type := LogLevel × String

instance : DecidableEq LogEntry := instDecidableEqProd

/-! ## Loader -/

/-- Embedding of the load function. The iris load_raw primitive is the
function parameter load_raw (the warning filtering has no observable
effect in the model). On an empty result it raises the generic builtin
Exception with the formatted message; otherwise every cube is tagged with
the source_file provenance attribute. -/
def load (load_raw : String → List Cube) (file : String) :
    Except PyExc (List Cube) :=
  let raw_cubes := load_raw file
  if raw_cubes.isEmpty then
    .error ⟨"Exception", "Can not load cubes from " ++ file⟩
  else
    .ok (raw_cubes.map fun c =>
      { c with attributes := upsert c.attributes "source_file" (.str file) })

/-! ## Attribute unifier -/

/-- One step of the attribute merge loop of _fix_cube_attributes: process
one (attr, val) entry against the accumulated attributes dictionary. -/
def fixStep (attributes : List (String × Value)) (e : String × Value) :
    List (String × Value) :=
  match List.lookup e.1 attributes with
  | none => attributes ++ [e]
  | some w =>
    if e.2 = w then attributes
    else upsert attributes e.1 (.str (w.toStr ++ ";" ++ e.2.toStr))

/-- The unified attribute dictionary computed by _fix_cube_attributes:
fold over the cubes, and inside over the attribute entries of each cube. -/
def fixAttrsMap (cubes : List Cube) : List (String × Value) :=
  cubes.foldl (fun attributes cube => cube.attributes.foldl fixStep attributes) []

/-- Embedding of _fix_cube_attributes: compute the unified dictionary from
all cubes and assign it to every cube (the in-place mutation is modelled
by returning the updated cube list). -/
def _fix_cube_attributes (cubes : List Cube) : List Cube :=
  cubes.map fun c => { c with attributes := fixAttrsMap cubes }

/-! ## Overlap resolver -/

/-- Message of the ValueError raised for fragments separated in time (the
source builds it from two adjacent f-strings, with no space between
"are" and "separated"). -/
def separatedMsg : String := "Attempting to concatenate cubes that areseparated in time."

/-- The ValueError raised when two time-bearing fragments share no time
point. -/
def separatedError : PyExc := ⟨"ValueError", separatedMsg⟩

/-- Embedding of _concatenate_overlapping_cubes over the pair of cubes it
receives. extrT models the time extraction utility (cube, start date,
end date); prim2 models the iris concatenate_cube primitive, whose
failure mode is a ConcatenateError with a message. The result is the
returned cube list or the raised exception, with the emitted log. -/
def _concatenate_overlapping_cubes
    (extrT : Cube → Int → Int → Cube)
    (prim2 : List Cube → Except String Cube)
    (cube₁ cube₂ : Cube) : Except PyExc (List Cube) × List LogEntry :=
  let (a, b) :=
    if (cube₁.timeD).points.headD 0 ≤ (cube₂.timeD).points.headD 0 then
      (cube₁, cube₂)
    else
      (cube₂, cube₁)
  let lg₀ : LogEntry :=
    (.debug, "Will attempt to concatenate cubes " ++ cubeStr a ++ " and "
      ++ cubeStr b ++ " in this order")
  let time₁ := a.timeD
  let time₂ := b.timeD
  let data_start_1 := startDate time₁
  let data_start_2 := startDate time₂
  let data_end_1 := endDate time₁
  let data_end_2 := endDate time₂
  if data_start_1 = data_start_2 then
    -- case 1: both cubes start at the same time: return the longer cube
    if data_end_1 < data_end_2 then
      (.ok [b], [lg₀,
        (.debug, "Both cubes start at the same time but cube " ++ cubeStr a
          ++ " ends before " ++ cubeStr b),
        (.debug, "Cube " ++ cubeStr b ++ " contains all needed data so using it fully")])
    else
      (.ok [a], [lg₀,
        (.debug, "Both cubes start at the same time but cube " ++ cubeStr b
          ++ " ends before " ++ cubeStr a),
        (.debug, "Cube " ++ cubeStr a ++ " contains all needed data so using it fully")])
  else
    -- case 2: cube a starts before cube b: find the first raw time point
    -- of a that is also a point of b, converted to a date
    match (time₁.points.find? fun t => time₂.points.contains t).map (time₁.epoch + ·) with
    | none =>
      -- case 0: no overlap
      (.error separatedError, [lg₀])
    | some start_overlap =>
      if data_end_1 ≤ data_end_2 then
        -- case 2.1: a ends before b: shorten a up to the overlap and
        -- concatenate with the full b (the source tests this and case
        -- 2.2 with two sequential if statements whose conditions are
        -- mutually exclusive)
        let c1_delta := extrT a data_start_1 start_overlap
        let lg₁ : LogEntry :=
          (.debug, "Extracting time slice between " ++ toString data_start_1
            ++ " and " ++ toString start_overlap ++ " from cube " ++ cubeStr a
            ++ " to use it for concatenation with cube " ++ cubeStr b)
        let lg₂ : LogEntry :=
          (.debug, "Attemptong concatenatenation of " ++ cubeStr c1_delta
            ++ " with " ++ cubeStr b)
        match prim2 [c1_delta, b] with
        | .ok c => (.ok [c], [lg₀, lg₁, lg₂])
        | .error m =>
          (.error ⟨"ConcatenateError", m⟩,
            [lg₀, lg₁, lg₂, (.error, "Can not concatenate cubes: " ++ m),
             (.error, "Cubes:"), (.error, cubeStr c1_delta), (.error, cubeStr b)])
      else
        -- case 2.2: a ends after b: a contains all of b in time
        (.ok [a], [lg₀, (.debug, "Using only data from " ++ cubeStr a)])

/-! ## Concatenator -/

/-- The ValueError raised by concatenate when more than one irreducible
result remains. -/
def cannotConcatenateError : PyExc := ⟨"ValueError", "Can not concatenate cubes."⟩

/-- The error kind the specification calls ConcatenationError: structural
concatenation could not reduce the fragments to one. Per the
specification it covers the failure of the final length check, the
absence of a shared time point between two time-bearing fragments, and
the failure of a sub-range-then-concatenate attempt (re-raised from the
concatenation primitive). -/
def IsConcatenationError (e : PyExc) : Bool :=
  e == cannotConcatenateError || e == separatedError || e.cls == "ConcatenateError"

/-- The error log block emitted by concatenate before raising: the two
header lines, then for every remaining cube its rendering and, when it
has a time coordinate, its start and end dates. -/
def failLogs (results : List Cube) : List LogEntry :=
  (.error, "Can not concatenate cubes into a single one.") ::
  (.error, "Resulting cubes:") ::
  results.flatMap fun r =>
    (LogLevel.error, cubeStr r) ::
    (match r.time with
     | some t => [(LogLevel.error, "From " ++ toString (startDate t) ++ " to "
         ++ toString (endDate t))]
     | none => [])

/-- Steps 1 to 3 of concatenate: unify the attributes, run the structural
concatenation primitive prim, and when exactly two results remain and
both expose a time coordinate hand them to the overlap resolver. -/
def concatResults
    (prim : List Cube → List Cube)
    (prim2 : List Cube → Except String Cube)
    (extrT : Cube → Int → Int → Cube)
    (cubes : List Cube) : Except PyExc (List Cube) × List LogEntry :=
  let concatenated := prim (_fix_cube_attributes cubes)
  match concatenated with
  | [a, b] =>
    if a.time.isSome && b.time.isSome then
      _concatenate_overlapping_cubes extrT prim2 a b
    else
      (.ok concatenated, [])
  | _ => (.ok concatenated, [])

/-- Embedding of concatenate: after steps 1 to 3, return the single
remaining fragment, or log every remaining fragment at error level (with
its date range when time-bearing) and raise a ValueError. -/
def concatenate
    (prim : List Cube → List Cube)
    (prim2 : List Cube → Except String Cube)
    (extrT : Cube → Int → Int → Cube)
    (cubes : List Cube) : Except PyExc Cube × List LogEntry :=
  match concatResults prim prim2 extrT cubes with
  | (.error e, log) => (.error e, log)
  | (.ok results, log) =>
    match results with
    | [c] => (.ok c, log)
    | _ => (.error cannotConcatenateError, log ++ failLogs results)

/-! ## Persister -/

/-- The fixed sentinel fill value 1e+20 applied on write. -/
def GLOBAL_FILL_VALUE : Int := 10 ^ 20

/-- The arguments of one invocation of the iris save primitive. -/
structure WriteCall where
  target : String
  zlib : Bool
  chunksizes : Option (List Nat)
  fill_value : Int
  cubes : List Cube
deriving Repr

/-- The observable effect of one save call: whether the missing output
directory was created, the write handed to the iris save primitive when
one happened, and the returned filename or the raised exception. -/
structure SaveEff where
  made_dir : Bool
  write : Option WriteCall
  result : Except PyExc String

/-- Embedding of cube.coord_dims(name): the data dimensions spanned by the
named coordinate, or a CoordinateNotFoundError when the cube has no such
coordinate. -/
def coord_dims (c : Cube) (name : String) : Except PyExc (List Nat) :=
  match List.lookup name c.coord_dims_map with
  | some ds => .ok ds
  | none => .error ⟨"CoordinateNotFoundError", name⟩

/-- The dimension set selected by an optimize_access mode, computed from
the first cube: latitude and longitude dimensions for map, the time
dimensions for timeseries, otherwise the union over the space-separated
coordinate names (the set is represented as a list whose membership is
what matters). -/
def accessDims (cube : Cube) (optimize_access : String) : Except PyExc (List Nat) :=
  if optimize_access = "map" then do
    let lat ← coord_dims cube "latitude"
    let lon ← coord_dims cube "longitude"
    pure (lat ++ lon)
  else if optimize_access = "timeseries" then
    coord_dims cube "time"
  else
    (optimize_access.splitOn " ").foldlM
      (fun dims dimension => do pure (dims ++ (← coord_dims cube dimension))) []

/-- The chunk sizes handed to the writer: the length of dimension i when i
is in the selected dimension set, else 1. -/
def chunkSizes (shape : List Nat) (dims : List Nat) : List Nat :=
  shape.enum.map fun il => if il.1 ∈ dims then il.2 else 1

/-- Embedding of save. The file system state is abstracted to whether the
output directory and the target file exist. The skip rule, the chunk
size computation from the first cube and the fill value follow the
source (on an empty cube list the source would raise an IndexError when
indexing cubes[0]; the model is only used with the first cube present
whenever the optimize_access branch is reached). -/
def save (dir_exists file_exists : Bool) (cubes : List Cube)
    (filename : String) (optimize_access : String) (compress : Bool) : SaveEff :=
  let made_dir := !dir_exists
  if file_exists && cubes.all (·.has_lazy_data) then
    { made_dir := made_dir, write := none, result := .ok filename }
  else
    let chunks : Except PyExc (Option (List Nat)) :=
      if optimize_access ≠ "" then
        (accessDims (cubes.headD default) optimize_access).map
          (fun dims => some (chunkSizes (cubes.headD default).shape dims))
      else
        .ok none
    match chunks with
    | .error e => { made_dir := made_dir, write := none, result := .error e }
    | .ok ck =>
      { made_dir := made_dir,
        write := some ⟨filename, compress, ck, GLOBAL_FILL_VALUE, cubes⟩,
        result := .ok filename }

/-! ## Metadata writer -/

/-- A product: a persisted output with its filename and attributes. -/
structure Product where
  filename : String
  attributes : List (String × Value)
deriving DecidableEq, Repr

instance : Inhabited Product := ⟨⟨"", []⟩⟩

/-- Embedding of os.path.dirname: the part of the path before the last
slash, with trailing slashes stripped unless the head is all slashes. -/
def dirname (p : String) : String :=
  let cs := p.toList
  let head :=
    match cs.reverse.findIdx? (fun c => c = '/') with
    | none => []
    | some k => cs.take (cs.length - k)
  let head :=
    if head ≠ [] ∧ head.any (· ≠ '/') then
      (head.reverse.dropWhile (· = '/')).reverse
    else head
  String.mk head

/-- Embedding of os.path.join for one extra component. -/
def joinPath (dir name : String) : String :=
  if dir = "" then name
  else if dir.toList.getLast? = some '/' then dir ++ name
  else dir ++ "/" ++ name

/-- Adjacent grouping, as itertools.groupby: maximal runs of consecutive
elements with equal keys become groups. -/
def groupRuns {α : Type} (key : α → String) (l : List α) : List (List α) :=
  l.foldr
    (fun p acc =>
      match acc with
      | [] => [[p]]
      | [] :: gs => [[p]] ++ gs
      | (q :: g) :: gs =>
        if key p == key q then (p :: q :: g) :: gs else [p] :: (q :: g) :: gs)
    []

/-- The first component of the sort key of a product: the
recipe_dataset_index attribute, with the large sentinel 1e6 when absent
(the attribute, when present, is an integer index). -/
def prodIdx (p : Product) : Int :=
  match List.lookup "recipe_dataset_index" p.attributes with
  | some (.int n) => n
  | _ => 1000000

/-- The second component of the sort key of a product: the dataset
attribute, with the empty string when absent. -/
def prodDataset (p : Product) : String :=
  match List.lookup "dataset" p.attributes with
  | some (.str s) => s
  | _ => ""

/-- The sort order of products inside one directory group: lexicographic
on the pair (recipe_dataset_index or 1e6, dataset or empty string). -/
def prodLE (p q : Product) : Prop :=
  prodIdx p < prodIdx q ∨ (prodIdx p = prodIdx q ∧ prodDataset p ≤ prodDataset q)

instance : DecidableRel prodLE := fun p q =>
  inferInstanceAs (Decidable (prodIdx p < prodIdx q ∨
    (prodIdx p = prodIdx q ∧ prodDataset p ≤ prodDataset q)))

/-- Normalization of the exp attribute: a list or tuple value is joined
into one hyphen-separated string. -/
def normalizeExp (attrs : List (String × Value)) : List (String × Value) :=
  match List.lookup "exp" attrs with
  | some (.strs l) => upsert attrs "exp" (.str (String.intercalate "-" l))
  | _ => attrs

/-- One written metadata.yml manifest: its path and its insertion-ordered
mapping from output filename to attribute map. -/
structure ManifestWrite where
  path : String
  entries : List (String × List (String × Value))
deriving DecidableEq, Repr

/-- The payload handed to the legacy settings writer: the per-fragment
attribute maps, the attributes identical across all fragments, and the
per-fragment dataset-varying attributes. -/
structure NclInfo where
  input_file_info : List (List (String × Value))
  variable_info : List (String × Value)
  dataset_info : List (List (String × Value))
deriving DecidableEq, Repr

/-- The dataset-level key set. -/
def DATASET_KEYS : List String := ["mip"]

/-- The variable-level key set. -/
def VARIABLE_KEYS : List String := ["reference_dataset", "alternative_dataset"]

/-- Embedding of _write_ncl_metadata: split the attribute maps of one
manifest into dataset-level and variable-level information and name the
legacy file after the short_name attribute (the source would raise a
KeyError when short_name is absent from the variable-level information;
the model then uses the empty name). -/
def _write_ncl_metadata (output_dir : String)
    (metadata : List (String × List (String × Value))) : String × NclInfo :=
  let vars := metadata.map (·.2)
  let split :=
    vars.foldl
      (fun (acc : List (String × Value) × List (List (String × Value))) varMap =>
        let inner :=
          varMap.foldl
            (fun (acc₂ : List (String × Value) × List (String × Value)) kv =>
              let dataset_specific :=
                vars.any fun var =>
                  match List.lookup kv.1 var with
                  | some w => decide (kv.2 ≠ w)
                  | none => true
              if (dataset_specific || kv.1 ∈ DATASET_KEYS)
                  && !(kv.1 ∈ VARIABLE_KEYS) then
                (acc₂.1, upsert acc₂.2 kv.1 kv.2)
              else
                (upsert acc₂.1 kv.1 kv.2, acc₂.2))
            (acc.1, [])
        (inner.1, acc.2 ++ [inner.2]))
      ([], [])
  let short_name :=
    match List.lookup "short_name" split.1 with
    | some (.str s) => s
    | _ => ""
  (joinPath output_dir (short_name ++ "_info.ncl"),
    ⟨vars, split.1, split.2⟩)

/-- The outputs of one directory group of write_metadata: the list of
written file paths, the manifest, and the optional legacy write. -/
def groupOutputs (write_ncl : Bool) (g : List Product) :
    List String × ManifestWrite × List (String × NclInfo) :=
  let output_dir := dirname (g.headD default).filename
  let sorted_products := List.insertionSort prodLE g
  let metadata :=
    sorted_products.foldl
      (fun md p => upsert md p.filename (normalizeExp p.attributes)) []
  let output_filename := joinPath output_dir "metadata.yml"
  if write_ncl then
    let ncl := _write_ncl_metadata output_dir metadata
    ([output_filename, ncl.1], ⟨output_filename, metadata⟩, [ncl])
  else
    ([output_filename], ⟨output_filename, metadata⟩, [])

/-- The observable effect of write_metadata: the returned file paths, the
written manifests and the legacy writes. -/
structure MetadataOutput where
  output_files : List String
  manifests : List ManifestWrite
  ncl_writes : List (String × NclInfo)

/-- Embedding of write_metadata: group the products by the directory of
their filename using adjacency, sort each group by the
(recipe_dataset_index, dataset) key with a stable sort (insertionSort is
the stable sort, as the Python sorted), normalize list-valued exp
attributes, and write one metadata.yml per group, with the optional
legacy companion file. -/
def write_metadata (products : List Product) (write_ncl : Bool) : MetadataOutput :=
  let groups := groupRuns (fun p => dirname p.filename) products
  { output_files := groups.flatMap fun g => (groupOutputs write_ncl g).1,
    manifests := groups.map fun g => (groupOutputs write_ncl g).2.1,
    ncl_writes := groups.flatMap fun g => (groupOutputs write_ncl g).2.2 }

/-! ## Specification-side definitions

The following definitions restate, in the words of the specification, the
contracts against which the source-side definitions above are compared. -/

/-- Keys in order of first appearance. -/
def dedupFirst (ks : List String) : List String :=
  ks.foldl (fun acc k => if k ∈ acc then acc else acc ++ [k]) []

/-- The values held for a key by a list of entries, in encounter order. -/
def valsOf (k : String) (es : List (String × Value)) : List Value :=
  (es.filter fun e => e.1 == k).map (·.2)

/-- The unified value of one attribute key per the specification: start
from the value of the first fragment holding the key, and whenever a
later value is structurally different, join the accumulated value and the
new one into a delimited string, in encounter order. -/
def mergeVals : List Value → Value
  | [] => .str ""
  | v :: rest =>
    rest.foldl (fun acc w => if w = acc then acc else .str (acc.toStr ++ ";" ++ w.toStr)) v

/-- The unified dictionary described by the specification, over a flat
list of attribute entries: every key in order of first appearance, mapped
to the merge of all values held for it. -/
def specOfEntries (es : List (String × Value)) : List (String × Value) :=
  (dedupFirst (es.map (·.1))).map fun k => (k, mergeVals (valsOf k es))

/-- Attribute keys appearing in any fragment, in encounter order. -/
def firstSeenKeys (cubes : List Cube) : List String :=
  dedupFirst ((cubes.flatMap (·.attributes)).map (·.1))

/-- The values held for a key across the fragments, one per fragment that
has the key, in fragment order. -/
def valsFor (k : String) (cubes : List Cube) : List Value :=
  cubes.filterMap fun c => List.lookup k c.attributes

/-- The unified attribute map described by the specification: for each
attribute key appearing in any fragment, the value from the first
fragment that has it, merged with every later structurally different
value in encounter order as a delimited string. -/
def specUnifiedMap (cubes : List Cube) : List (String × Value) :=
  (firstSeenKeys cubes).map fun k => (k, mergeVals (valsFor k cubes))

/-- The chunk size vector described by the specification: position i holds
the extent of dimension i of the fragment when i belongs to the selected
dimension set, else 1. -/
def chunksizesSpec (c : Cube) (dims : List Nat) : List Nat :=
  (List.range c.shape.length).map fun i => if i ∈ dims then c.shape.getD i 0 else 1

/-- The branch structure of the overlap resolver with the logging
stripped, after the pair has been ordered: used to reason about the
returned value of _concatenate_overlapping_cubes. -/
def resolveCore (extrT : Cube → Int → Int → Cube)
    (prim2 : List Cube → Except String Cube) (a b : Cube) :
    Except PyExc (List Cube) :=
  if startDate a.timeD = startDate b.timeD then
    if endDate a.timeD < endDate b.timeD then .ok [b] else .ok [a]
  else
    match (a.timeD.points.find? fun t => b.timeD.points.contains t).map
        (a.timeD.epoch + ·) with
    | none => .error separatedError
    | some start_overlap =>
      if endDate a.timeD ≤ endDate b.timeD then
        match prim2 [extrT a (startDate a.timeD) start_overlap, b] with
        | .ok c => .ok [c]
        | .error m => .error ⟨"ConcatenateError", m⟩
      else .ok [a]

/-! ## Concrete inputs used by the witnesses -/

/-- A cube with lazy data, used by the save skip witness. -/
def cubeLazy : Cube := ⟨[], none, [2], [], true⟩

/-- A three-dimensional cube with latitude, longitude and time, used by
the chunk size witness. -/
def cubeGrid : Cube :=
  ⟨[], none, [10, 5, 20], [("latitude", [0]), ("longitude", [2]), ("time", [1])], false⟩

/-- A cube of a different shape, used to show the chunk sizes ignore it. -/
def cubeOther : Cube := ⟨[], none, [7, 7], [], false⟩

/-- Products used by the metadata writer witness: two in directory A with
indices 2 and 1, one in directory B without an index. -/
def prodA2 : Product := ⟨"A/t2.nc", [("recipe_dataset_index", .int 2)]⟩

/-- The index-1 product of directory A. -/
def prodA1 : Product := ⟨"A/t1.nc", [("recipe_dataset_index", .int 1)]⟩

/-- The index-free product of directory B. -/
def prodB : Product := ⟨"B/t3.nc", []⟩

/-- A cube with two attributes, used by the unifier witness. -/
def cubeAttr1 : Cube := ⟨[("k", .int 1), ("a", .str "p")], none, [], [], false⟩

/-- A cube holding a divergent value for the shared key, used by the
unifier witness. -/
def cubeAttr2 : Cube := ⟨[("k", .int 2)], none, [], [], false⟩

/-! ## Claim C2: loading zero fragments -/

/-- C2, counterexample: loading zero fragments raises the generic builtin
Exception class, not a dedicated LoadError kind, so the claim that a
dedicated, labeled error kind is raised fails on the code. -/
theorem load_zero_not_dedicated_error :
    load (fun _ => []) "x.nc" =
      .error ⟨"Exception", "Can not load cubes from x.nc"⟩ ∧
    ("Exception" : String) ≠ "LoadError" :=
  ⟨rfl, by decide⟩

/-- C2, amended: for every source that yields zero fragments, load raises
immediately, with the generic builtin Exception carrying the message
naming the file (the code has no dedicated LoadError class). -/
theorem load_zero_fragments_raises :
    ∀ (load_raw : String → List Cube) (file : String),
      load_raw file = [] →
      load load_raw file = .error ⟨"Exception", "Can not load cubes from " ++ file⟩ := by
  intro lr file h
  simp [load, h]

/-- C2, witness for the amended claim at a concrete source and file. -/
theorem load_zero_fragments_raises_witness :
    ((fun _ : String => ([] : List Cube)) "y.nc" = []) ∧
    load (fun _ => []) "y.nc" =
      .error ⟨"Exception", "Can not load cubes from " ++ "y.nc"⟩ :=
  ⟨rfl, load_zero_fragments_raises (fun _ => []) "y.nc" rfl⟩

/-! ## Claim C7: the save skip rule -/

/-- C7: when the target file exists and every cube still has lazy data,
save performs no write and returns the target path unchanged. -/
theorem save_skips_existing_lazy :
    ∀ (dir_exists : Bool) (cubes : List Cube)
      (filename optimize_access : String) (compress : Bool),
      (∀ c ∈ cubes, c.has_lazy_data = true) →
      (save dir_exists true cubes filename optimize_access compress).write = none ∧
      (save dir_exists true cubes filename optimize_access compress).result = .ok filename := by
  intro de cubes fn oa comp h
  have hall : cubes.all (·.has_lazy_data) = true := by
    rw [List.all_eq_true]; exact h
  simp [save, hall]

/-- C7, witness: a concrete lazy cube and existing target. -/
theorem save_skips_existing_lazy_witness :
    (∀ c ∈ [cubeLazy], c.has_lazy_data = true) ∧
    (save false true [cubeLazy] "out.nc" "" false).write = none ∧
    (save false true [cubeLazy] "out.nc" "" false).result = .ok "out.nc" :=
  ⟨by decide, save_skips_existing_lazy false [cubeLazy] "out.nc" "" false (by decide)⟩

/-! ## Claim C10: chunk sizes come from the first fragment -/

/-- The enumerate-based chunk size computation of the source agrees with
the range-based formula of the specification. -/
theorem chunkSizes_eq_spec (c : Cube) (dims : List Nat) :
    chunkSizes c.shape dims = chunksizesSpec c dims := by
  apply List.ext_getElem
  · simp [chunkSizes, chunksizesSpec]
  · intro i h₁ h₂
    simp only [chunkSizes, chunksizesSpec, List.getElem_map, List.getElem_enum,
      List.getElem_range]
    have hi : i < c.shape.length := by
      simpa [chunkSizes] using h₁
    rw [List.getD_eq_getElem c.shape 0 hi]

/-- The write handed over by save in the non-skip case under a non-empty
optimize_access mode, as a function of the chunk size computation on the
first cube. -/
theorem save_write_eq (de fe : Bool) (cubes : List Cube) (fn oa : String)
    (comp : Bool) (hoa : oa ≠ "")
    (hskip : ¬((fe && cubes.all (·.has_lazy_data)) = true)) :
    (save de fe cubes fn oa comp).write =
      match accessDims (cubes.headD default) oa with
      | .error _ => none
      | .ok dims =>
        some ⟨fn, comp, some (chunkSizes (cubes.headD default).shape dims),
          GLOBAL_FILL_VALUE, cubes⟩ := by
  unfold save
  rw [if_neg hskip, if_pos hoa]
  cases accessDims (cubes.headD default) oa <;> simp [Except.map]

/-- C10: whenever save hands a write to the writer under a non-empty
optimize_access mode, the chunk sizes are computed solely from the first
cube of the list: they equal the specification formula on the first cube
and the selected dimension set, whatever the remaining cubes are. -/
theorem save_chunksizes_from_first :
    ∀ (dir_exists file_exists : Bool) (c : Cube) (rest : List Cube)
      (filename optimize_access : String) (compress : Bool) (w : WriteCall),
      optimize_access ≠ "" →
      (save dir_exists file_exists (c :: rest) filename optimize_access
        compress).write = some w →
      ∃ dims, accessDims c optimize_access = .ok dims ∧
        w.chunksizes = some (chunksizesSpec c dims) := by
  intro de fe c rest fn oa comp w hoa hw
  by_cases hskip : (fe && (c :: rest).all (·.has_lazy_data)) = true
  · have hnone : (save de fe (c :: rest) fn oa comp).write = none := by
      unfold save; rw [if_pos hskip]
    rw [hnone] at hw
    exact absurd hw (by simp)
  · rw [save_write_eq de fe (c :: rest) fn oa comp hoa hskip, List.headD_cons] at hw
    cases hacc : accessDims c oa with
    | error e => rw [hacc] at hw; simp at hw
    | ok dims =>
      rw [hacc] at hw
      simp only [Option.some.injEq] at hw
      refine ⟨dims, rfl, ?_⟩
      rw [← hw]
      simp [chunkSizes_eq_spec]

/-- C10, witness: a concrete save of two cubes of different shapes under
the map mode; the chunk sizes follow the first cube only. -/
theorem save_chunksizes_from_first_witness :
    ("map" : String) ≠ "" ∧
    (save false false [cubeGrid, cubeOther] "x.nc" "map" false).write =
      some ⟨"x.nc", false, some [10, 1, 20], GLOBAL_FILL_VALUE, [cubeGrid, cubeOther]⟩ ∧
    ∃ dims, accessDims cubeGrid "map" = .ok dims ∧
      (⟨"x.nc", false, some [10, 1, 20], GLOBAL_FILL_VALUE,
        [cubeGrid, cubeOther]⟩ : WriteCall).chunksizes =
        some (chunksizesSpec cubeGrid dims) :=
  ⟨by decide, rfl,
    save_chunksizes_from_first false false cubeGrid [cubeOther] "x.nc" "map" false
      ⟨"x.nc", false, some [10, 1, 20], GLOBAL_FILL_VALUE, [cubeGrid, cubeOther]⟩
      (by decide) rfl⟩

/-! ## Claims C5, C6, C9: the overlap resolver -/

/-- The returned value of the overlap resolver is resolveCore applied to
the pair ordered by the raw first time points. -/
theorem resolver_fst (extrT : Cube → Int → Int → Cube)
    (prim2 : List Cube → Except String Cube) (c₁ c₂ : Cube) :
    (_concatenate_overlapping_cubes extrT prim2 c₁ c₂).1 =
      if c₁.timeD.points.headD 0 ≤ c₂.timeD.points.headD 0 then
        resolveCore extrT prim2 c₁ c₂
      else
        resolveCore extrT prim2 c₂ c₁ := by
  unfold _concatenate_overlapping_cubes resolveCore
  by_cases hsw : c₁.timeD.points.headD 0 ≤ c₂.timeD.points.headD 0 <;>
    simp only [hsw, ite_true, ite_false] <;>
    (repeat' split) <;> rfl

/-- C5: for two time-bearing fragments whose first time points fall on the
same date, the resolver keeps exactly the fragment with the later end
date; in particular when the first ends strictly before the second, the
second fragment is returned unchanged. -/
theorem overlap_equal_start_keeps_longer :
    ∀ (extrT : Cube → Int → Int → Cube) (prim2 : List Cube → Except String Cube)
      (c₁ c₂ : Cube) (t₁ t₂ : TimeCoord),
      c₁.time = some t₁ → c₂.time = some t₂ →
      t₁.points ≠ [] → t₂.points ≠ [] →
      startDate t₁ = startDate t₂ →
      (endDate t₁ < endDate t₂ →
        (_concatenate_overlapping_cubes extrT prim2 c₁ c₂).1 = .ok [c₂]) ∧
      (∃ c, (_concatenate_overlapping_cubes extrT prim2 c₁ c₂).1 = .ok [c] ∧
        (c = c₁ ∨ c = c₂) ∧
        endDate c.timeD = max (endDate t₁) (endDate t₂)) := by
  intro extrT prim2 c₁ c₂ t₁ t₂ h₁ h₂ hp₁ hp₂ hstart
  have ht₁ : c₁.timeD = t₁ := by simp [Cube.timeD, h₁]
  have ht₂ : c₂.timeD = t₂ := by simp [Cube.timeD, h₂]
  rw [show (_concatenate_overlapping_cubes extrT prim2 c₁ c₂).1 =
      (if c₁.timeD.points.headD 0 ≤ c₂.timeD.points.headD 0 then
        resolveCore extrT prim2 c₁ c₂
      else resolveCore extrT prim2 c₂ c₁) from resolver_fst extrT prim2 c₁ c₂]
  by_cases hsw : c₁.timeD.points.headD 0 ≤ c₂.timeD.points.headD 0 <;>
    simp only [hsw, ite_true, ite_false]
  · unfold resolveCore
    rw [ht₁, ht₂, if_pos hstart]
    constructor
    · intro hlt; rw [if_pos hlt]
    · by_cases hlt : endDate t₁ < endDate t₂
      · exact ⟨c₂, by rw [if_pos hlt], Or.inr rfl, by rw [ht₂, max_eq_right hlt.le]⟩
      · exact ⟨c₁, by rw [if_neg hlt], Or.inl rfl, by rw [ht₁, max_eq_left (not_lt.mp hlt)]⟩
  · unfold resolveCore
    rw [ht₁, ht₂, if_pos hstart.symm]
    constructor
    · intro hlt
      rw [if_neg (not_lt.mpr hlt.le)]
    · by_cases hlt : endDate t₂ < endDate t₁
      · exact ⟨c₁, by rw [if_pos hlt], Or.inl rfl, by rw [ht₁, max_eq_left hlt.le]⟩
      · exact ⟨c₂, by rw [if_neg hlt], Or.inr rfl, by rw [ht₂, max_eq_right (not_lt.mp hlt)]⟩

/-- C5, witness: two concrete cubes starting on the same date, the first
ending strictly earlier. -/
theorem overlap_equal_start_keeps_longer_witness :
    ((⟨[], some ⟨0, [1, 2]⟩, [], [], false⟩ : Cube).time = some ⟨0, [1, 2]⟩) ∧
    (([1, 2] : List Int) ≠ []) ∧ (([1, 2, 3] : List Int) ≠ []) ∧
    startDate ⟨0, [1, 2]⟩ = startDate ⟨0, [1, 2, 3]⟩ ∧
    ((endDate (⟨0, [1, 2]⟩ : TimeCoord) < endDate (⟨0, [1, 2, 3]⟩ : TimeCoord) →
      (_concatenate_overlapping_cubes (fun c _ _ => c) (fun _ => .error "x")
        ⟨[], some ⟨0, [1, 2]⟩, [], [], false⟩
        ⟨[], some ⟨0, [1, 2, 3]⟩, [], [], false⟩).1 =
        .ok [⟨[], some ⟨0, [1, 2, 3]⟩, [], [], false⟩]) ∧
     (∃ c, (_concatenate_overlapping_cubes (fun c _ _ => c) (fun _ => .error "x")
        ⟨[], some ⟨0, [1, 2]⟩, [], [], false⟩
        ⟨[], some ⟨0, [1, 2, 3]⟩, [], [], false⟩).1 = .ok [c] ∧
        (c = ⟨[], some ⟨0, [1, 2]⟩, [], [], false⟩ ∨
         c = ⟨[], some ⟨0, [1, 2, 3]⟩, [], [], false⟩) ∧
        endDate c.timeD = max (endDate (⟨0, [1, 2]⟩ : TimeCoord))
          (endDate (⟨0, [1, 2, 3]⟩ : TimeCoord)))) :=
  ⟨rfl, by decide, by decide, by decide,
    overlap_equal_start_keeps_longer (fun c _ _ => c) (fun _ => .error "x")
      ⟨[], some ⟨0, [1, 2]⟩, [], [], false⟩ ⟨[], some ⟨0, [1, 2, 3]⟩, [], [], false⟩
      ⟨0, [1, 2]⟩ ⟨0, [1, 2, 3]⟩ rfl rfl (by decide) (by decide) (by decide)⟩

/-- C6: two time-bearing fragments with different start dates and disjoint
raw time point sets make the resolver raise the separated-in-time
ValueError, and any concatenate run whose structural primitive leaves
exactly this pair fails with the same error. -/
theorem overlap_disjoint_raises :
    ∀ (extrT : Cube → Int → Int → Cube) (prim2 : List Cube → Except String Cube)
      (c₁ c₂ : Cube) (t₁ t₂ : TimeCoord),
      c₁.time = some t₁ → c₂.time = some t₂ →
      t₁.points ≠ [] → t₂.points ≠ [] →
      startDate t₁ ≠ startDate t₂ →
      (∀ t ∈ t₁.points, t ∉ t₂.points) →
      (_concatenate_overlapping_cubes extrT prim2 c₁ c₂).1 = .error separatedError ∧
      ∀ (prim : List Cube → List Cube) (cubes : List Cube),
        prim (_fix_cube_attributes cubes) = [c₁, c₂] →
        (concatenate prim prim2 extrT cubes).1 = .error separatedError := by
  intro extrT prim2 c₁ c₂ t₁ t₂ h₁ h₂ hp₁ hp₂ hstart hdisj
  have ht₁ : c₁.timeD = t₁ := by simp [Cube.timeD, h₁]
  have ht₂ : c₂.timeD = t₂ := by simp [Cube.timeD, h₂]
  have hfind₁ : t₁.points.find? (fun t => t₂.points.contains t) = none := by
    rw [List.find?_eq_none]
    intro t ht
    simpa using hdisj t ht
  have hfind₂ : t₂.points.find? (fun t => t₁.points.contains t) = none := by
    rw [List.find?_eq_none]
    intro t ht hc
    have hmem : t ∈ t₁.points := by simpa using hc
    exact hdisj t hmem ht
  have hmain :
      (_concatenate_overlapping_cubes extrT prim2 c₁ c₂).1 = .error separatedError := by
    rw [resolver_fst extrT prim2 c₁ c₂]
    by_cases hsw : c₁.timeD.points.headD 0 ≤ c₂.timeD.points.headD 0 <;>
      simp only [hsw, ite_true, ite_false] <;> unfold resolveCore
    · rw [ht₁, ht₂, if_neg hstart, hfind₁]
      rfl
    · rw [ht₁, ht₂, if_neg (Ne.symm hstart), hfind₂]
      rfl
  refine ⟨hmain, ?_⟩
  intro prim cubes hprim
  have hts : (c₁.time.isSome && c₂.time.isSome) = true := by
    rw [h₁, h₂]; rfl
  have hcr : concatResults prim prim2 extrT cubes =
      _concatenate_overlapping_cubes extrT prim2 c₁ c₂ := by
    unfold concatResults
    rw [hprim]
    show (if (c₁.time.isSome && c₂.time.isSome) = true
        then _concatenate_overlapping_cubes extrT prim2 c₁ c₂
        else (.ok [c₁, c₂], [])) = _
    rw [if_pos hts]
  unfold concatenate
  rw [hcr]
  rcases hres : _concatenate_overlapping_cubes extrT prim2 c₁ c₂ with ⟨r, lg⟩
  rw [hres] at hmain
  replace hmain : r = Except.error separatedError := hmain
  rw [hmain]

/-- C6, witness: two concrete cubes with different start dates and no
shared raw time point, and a structural primitive leaving that pair. -/
theorem overlap_disjoint_raises_witness :
    ((⟨[], some ⟨0, [1, 2]⟩, [], [], false⟩ : Cube).time = some ⟨0, [1, 2]⟩) ∧
    (([1, 2] : List Int) ≠ []) ∧ (([5, 6] : List Int) ≠ []) ∧
    startDate (⟨0, [1, 2]⟩ : TimeCoord) ≠ startDate (⟨0, [5, 6]⟩ : TimeCoord) ∧
    (∀ t ∈ ([1, 2] : List Int), t ∉ ([5, 6] : List Int)) ∧
    (_concatenate_overlapping_cubes (fun c _ _ => c) (fun _ => .error "x")
      ⟨[], some ⟨0, [1, 2]⟩, [], [], false⟩
      ⟨[], some ⟨0, [5, 6]⟩, [], [], false⟩).1 = .error separatedError ∧
    (concatenate
      (fun _ => [⟨[], some ⟨0, [1, 2]⟩, [], [], false⟩,
                 ⟨[], some ⟨0, [5, 6]⟩, [], [], false⟩])
      (fun _ => .error "x") (fun c _ _ => c)
      [⟨[], some ⟨0, [1, 2]⟩, [], [], false⟩]).1 = .error separatedError := by
  have h := overlap_disjoint_raises (fun c _ _ => c) (fun _ => .error "x")
    ⟨[], some ⟨0, [1, 2]⟩, [], [], false⟩ ⟨[], some ⟨0, [5, 6]⟩, [], [], false⟩
    ⟨0, [1, 2]⟩ ⟨0, [5, 6]⟩ rfl rfl (by decide) (by decide) (by decide) (by decide)
  exact ⟨rfl, by decide, by decide, by decide, by decide, h.1,
    h.2 _ [⟨[], some ⟨0, [1, 2]⟩, [], [], false⟩] rfl⟩

/-- C9: for two fragments each exposing a time coordinate with at least
one point, the resolver either raises or returns a single-element list:
the two-element pass-through outcome is unreachable. -/
theorem overlap_resolver_single_or_error :
    ∀ (extrT : Cube → Int → Int → Cube) (prim2 : List Cube → Except String Cube)
      (c₁ c₂ : Cube) (t₁ t₂ : TimeCoord),
      c₁.time = some t₁ → c₂.time = some t₂ →
      t₁.points ≠ [] → t₂.points ≠ [] →
      (∃ e, (_concatenate_overlapping_cubes extrT prim2 c₁ c₂).1 = .error e) ∨
      (∃ c, (_concatenate_overlapping_cubes extrT prim2 c₁ c₂).1 = .ok [c]) := by
  intro extrT prim2 c₁ c₂ t₁ t₂ h₁ h₂ hp₁ hp₂
  rw [resolver_fst extrT prim2 c₁ c₂]
  by_cases hsw : c₁.timeD.points.headD 0 ≤ c₂.timeD.points.headD 0 <;>
    simp only [hsw, ite_true, ite_false] <;> unfold resolveCore
  · split
    · split
      · exact Or.inr ⟨_, rfl⟩
      · exact Or.inr ⟨_, rfl⟩
    · split
      · exact Or.inl ⟨_, rfl⟩
      · split
        · split
          · exact Or.inr ⟨_, rfl⟩
          · exact Or.inl ⟨_, rfl⟩
        · exact Or.inr ⟨_, rfl⟩
  · split
    · split
      · exact Or.inr ⟨_, rfl⟩
      · exact Or.inr ⟨_, rfl⟩
    · split
      · exact Or.inl ⟨_, rfl⟩
      · split
        · split
          · exact Or.inr ⟨_, rfl⟩
          · exact Or.inl ⟨_, rfl⟩
        · exact Or.inr ⟨_, rfl⟩

/-- C9, witness: two concrete time-bearing cubes. -/
theorem overlap_resolver_single_or_error_witness :
    ((⟨[], some ⟨0, [1, 2]⟩, [], [], false⟩ : Cube).time = some ⟨0, [1, 2]⟩) ∧
    (([1, 2] : List Int) ≠ []) ∧ (([2, 3] : List Int) ≠ []) ∧
    ((∃ e, (_concatenate_overlapping_cubes (fun c _ _ => c)
        (fun l => .ok (l.headD default))
        ⟨[], some ⟨0, [1, 2]⟩, [], [], false⟩
        ⟨[], some ⟨0, [2, 3]⟩, [], [], false⟩).1 = .error e) ∨
     (∃ c, (_concatenate_overlapping_cubes (fun c _ _ => c)
        (fun l => .ok (l.headD default))
        ⟨[], some ⟨0, [1, 2]⟩, [], [], false⟩
        ⟨[], some ⟨0, [2, 3]⟩, [], [], false⟩).1 = .ok [c])) :=
  ⟨rfl, by decide, by decide,
    overlap_resolver_single_or_error (fun c _ _ => c) (fun l => .ok (l.headD default))
      ⟨[], some ⟨0, [1, 2]⟩, [], [], false⟩ ⟨[], some ⟨0, [2, 3]⟩, [], [], false⟩
      ⟨0, [1, 2]⟩ ⟨0, [2, 3]⟩ rfl rfl (by decide) (by decide)⟩

/-! ## Lemmas on the attribute unifier -/

/-- Membership in the first-occurrence fold. -/
theorem dedupFoldl_mem (ks : List String) :
    ∀ (acc : List String) (x : String),
      (x ∈ ks.foldl (fun a k => if k ∈ a then a else a ++ [k]) acc) ↔
        x ∈ acc ∨ x ∈ ks := by
  induction ks with
  | nil => intro acc x; simp
  | cons k rest ih =>
    intro acc x
    simp only [List.foldl_cons]
    by_cases hk : k ∈ acc
    · rw [if_pos hk, ih]
      simp only [List.mem_cons]
      constructor
      · rintro (h | h)
        · exact Or.inl h
        · exact Or.inr (Or.inr h)
      · rintro (h | h | h)
        · exact Or.inl h
        · exact Or.inl (by rw [h]; exact hk)
        · exact Or.inr h
    · rw [if_neg hk, ih]
      simp only [List.mem_append, List.mem_cons, List.not_mem_nil, or_false]
      tauto

/-- Membership in the key list in order of first appearance. -/
theorem mem_dedupFirst (ks : List String) (x : String) :
    x ∈ dedupFirst ks ↔ x ∈ ks := by
  unfold dedupFirst
  rw [dedupFoldl_mem]
  simp

/-- The first-occurrence fold preserves freedom from duplicates. -/
theorem dedupFoldl_nodup (ks : List String) :
    ∀ acc : List String, acc.Nodup →
      (ks.foldl (fun a k => if k ∈ a then a else a ++ [k]) acc).Nodup := by
  induction ks with
  | nil => intro acc h; simpa using h
  | cons k rest ih =>
    intro acc h
    simp only [List.foldl_cons]
    by_cases hk : k ∈ acc
    · rw [if_pos hk]; exact ih acc h
    · rw [if_neg hk]
      exact ih _ (by simp [List.nodup_append, h, hk])

/-- The key list in order of first appearance has no duplicates. -/
theorem nodup_dedupFirst (ks : List String) : (dedupFirst ks).Nodup :=
  dedupFoldl_nodup ks [] List.nodup_nil

/-- Effect of one more key on the first-appearance key list. -/
theorem dedupFirst_concat (ks : List String) (k : String) :
    dedupFirst (ks ++ [k]) =
      if k ∈ ks then dedupFirst ks else dedupFirst ks ++ [k] := by
  have h1 : dedupFirst (ks ++ [k]) =
      if k ∈ dedupFirst ks then dedupFirst ks else dedupFirst ks ++ [k] := by
    show List.foldl (fun a k₀ => if k₀ ∈ a then a else a ++ [k₀]) [] (ks ++ [k]) = _
    rw [List.foldl_append]
    rfl
  rw [h1]
  by_cases hk : k ∈ ks
  · rw [if_pos ((mem_dedupFirst ks k).mpr hk), if_pos hk]
  · rw [if_neg (fun hc => hk ((mem_dedupFirst ks k).mp hc)), if_neg hk]

/-- Lookup in a list of pairs built from a key list. -/
theorem lookup_map_pairs (f : String → Value) (k : String) :
    ∀ ks : List String,
      List.lookup k (ks.map fun k₀ => (k₀, f k₀)) =
        if k ∈ ks then some (f k) else none := by
  intro ks
  induction ks with
  | nil => simp
  | cons k₀ rest ih =>
    by_cases hk : k = k₀
    · subst hk
      simp [List.lookup, List.mem_cons]
    · have hbeq : (k == k₀) = false := beq_eq_false_iff_ne.mpr hk
      rw [List.map_cons, List.lookup_cons]
      simp only [hbeq]
      rw [ih]
      by_cases hmem : k ∈ rest
      · rw [if_pos hmem, if_pos (List.mem_cons_of_mem _ hmem)]
      · rw [if_neg hmem, if_neg (by
          intro hc
          rcases List.mem_cons.mp hc with h | h
          exacts [hk h, hmem h])]

/-- The values of a key over a concatenation of entry lists. -/
theorem valsOf_append (k : String) (l₁ l₂ : List (String × Value)) :
    valsOf k (l₁ ++ l₂) = valsOf k l₁ ++ valsOf k l₂ := by
  unfold valsOf
  rw [List.filter_append, List.map_append]

/-- The values of a key over one more entry. -/
theorem valsOf_concat (k : String) (es : List (String × Value))
    (k₁ : String) (v₁ : Value) :
    valsOf k (es ++ [(k₁, v₁)]) =
      valsOf k es ++ (if k₁ == k then [v₁] else []) := by
  rw [valsOf_append]
  congr 1
  unfold valsOf
  by_cases h : (k₁ == k) = true
  · simp [List.filter_cons, h]
  · simp [List.filter_cons, h]

/-- A key absent from the entries has no values. -/
theorem valsOf_eq_nil (k : String) (es : List (String × Value))
    (h : k ∉ es.map (·.1)) : valsOf k es = [] := by
  unfold valsOf
  rw [List.map_eq_nil_iff, List.filter_eq_nil_iff]
  intro e he hc
  exact h (List.mem_map.mpr ⟨e, he, eq_of_beq hc⟩)

/-- A key present in the entries has at least one value. -/
theorem valsOf_ne_nil (k : String) (es : List (String × Value))
    (h : k ∈ es.map (·.1)) : valsOf k es ≠ [] := by
  rcases List.mem_map.mp h with ⟨e, he, hek⟩
  unfold valsOf
  intro hc
  rw [List.map_eq_nil_iff, List.filter_eq_nil_iff] at hc
  exact hc e he (by simp [hek])

/-- Merging one more value folds the join step onto the accumulated
merge. -/
theorem mergeVals_concat (vs : List Value) (v : Value) (h : vs ≠ []) :
    mergeVals (vs ++ [v]) =
      if v = mergeVals vs then mergeVals vs
      else .str ((mergeVals vs).toStr ++ ";" ++ v.toStr) := by
  rcases vs with _ | ⟨v₀, rest⟩
  · exact absurd rfl h
  · show ((rest ++ [v]).foldl _ v₀ : Value) = _
    rw [List.foldl_append, List.foldl_cons, List.foldl_nil]
    rfl

/-- Updating a present key in a list of pairs built from a key list
without duplicates rewrites exactly that value. -/
theorem upsert_map_pairs (f : String → Value) (k : String) (w : Value) :
    ∀ ks : List String, ks.Nodup → k ∈ ks →
      upsert (ks.map fun k₀ => (k₀, f k₀)) k w =
        ks.map fun k₀ => (k₀, if k₀ = k then w else f k₀) := by
  intro ks
  induction ks with
  | nil => intro _ h; exact absurd h (List.not_mem_nil k)
  | cons k₀ rest ih =>
    intro hnd hk
    simp only [List.map_cons]
    unfold upsert
    by_cases he : (k₀ == k) = true
    · have hek : k₀ = k := eq_of_beq he
      rw [if_pos he, if_pos hek]
      congr 1
      apply List.map_congr_left
      intro k₁ hk₁
      have hne : k₁ ≠ k := by
        intro hc
        exact (List.nodup_cons.mp hnd).1 (by rw [hek, ← hc]; exact hk₁)
      rw [if_neg hne]
    · have hek : k₀ ≠ k := fun hc => by simp [hc] at he
      rw [if_neg he, if_neg hek]
      have hkrest : k ∈ rest := by
        rcases List.mem_cons.mp hk with h | h
        · exact absurd h.symm hek
        · exact h
      rw [ih (List.nodup_cons.mp hnd).2 hkrest]

/-- The merge step when the key is already present. -/
theorem fixStep_lookup_some (acc : List (String × Value)) (k : String)
    (v w : Value) (h : List.lookup k acc = some w) :
    fixStep acc (k, v) =
      if v = w then acc
      else upsert acc k (.str (w.toStr ++ ";" ++ v.toStr)) := by
  show (match List.lookup k acc with
    | none => acc ++ [(k, v)]
    | some w₀ => if v = w₀ then acc
        else upsert acc k (.str (w₀.toStr ++ ";" ++ v.toStr))) = _
  rw [h]

/-- The merge step when the key is new. -/
theorem fixStep_lookup_none (acc : List (String × Value)) (k : String)
    (v : Value) (h : List.lookup k acc = none) :
    fixStep acc (k, v) = acc ++ [(k, v)] := by
  show (match List.lookup k acc with
    | none => acc ++ [(k, v)]
    | some w₀ => if v = w₀ then acc
        else upsert acc k (.str (w₀.toStr ++ ";" ++ v.toStr))) = _
  rw [h]

/-- The merge loop of _fix_cube_attributes computes exactly the unified
dictionary described by the specification, entry list by entry list. -/
theorem foldl_fixStep_eq_spec :
    ∀ es : List (String × Value), es.foldl fixStep [] = specOfEntries es := by
  intro es
  induction es using List.reverseRecOn with
  | nil => rfl
  | append_singleton es e ih =>
    rw [List.foldl_append, List.foldl_cons, List.foldl_nil, ih]
    rcases e with ⟨k, v⟩
    have hspec : specOfEntries es =
        (dedupFirst (es.map (·.1))).map
          (fun k₀ => (k₀, mergeVals (valsOf k₀ es))) := rfl
    have hrhs : specOfEntries (es ++ [(k, v)]) =
        (dedupFirst (es.map (·.1) ++ [k])).map
          (fun k₀ => (k₀, mergeVals (valsOf k₀ (es ++ [(k, v)])))) := by
      unfold specOfEntries
      congr 2
      simp
    rw [hrhs, dedupFirst_concat]
    by_cases hk : k ∈ es.map (·.1)
    · rw [if_pos hk]
      have hlook : List.lookup k (specOfEntries es) =
          some (mergeVals (valsOf k es)) := by
        rw [hspec, lookup_map_pairs, if_pos ((mem_dedupFirst _ k).mpr hk)]
      have hmerge : mergeVals (valsOf k (es ++ [(k, v)])) =
          if v = mergeVals (valsOf k es) then mergeVals (valsOf k es)
          else .str ((mergeVals (valsOf k es)).toStr ++ ";" ++ v.toStr) := by
        rw [valsOf_concat, if_pos (beq_self_eq_true k)]
        exact mergeVals_concat _ v (valsOf_ne_nil k es hk)
      rw [fixStep_lookup_some _ k v _ hlook]
      by_cases hv : v = mergeVals (valsOf k es)
      · rw [if_pos hv, hspec]
        symm
        apply List.map_congr_left
        intro k₀ hk₀
        by_cases hke : k₀ = k
        · subst hke
          rw [hmerge, if_pos hv]
        · rw [valsOf_concat, if_neg (fun hc => hke (eq_of_beq hc).symm),
            List.append_nil]
      · rw [if_neg hv, hspec,
          upsert_map_pairs _ k _ _ (nodup_dedupFirst _) ((mem_dedupFirst _ k).mpr hk)]
        apply List.map_congr_left
        intro k₀ hk₀
        by_cases hke : k₀ = k
        · subst hke
          rw [if_pos rfl, hmerge, if_neg hv]
        · rw [if_neg hke, valsOf_concat,
            if_neg (fun hc => hke (eq_of_beq hc).symm), List.append_nil]
    · rw [if_neg hk]
      have hlook : List.lookup k (specOfEntries es) = none := by
        rw [hspec, lookup_map_pairs,
          if_neg (fun hc => hk ((mem_dedupFirst _ k).mp hc))]
      rw [fixStep_lookup_none _ k v hlook, List.map_append, hspec]
      congr 1
      · apply List.map_congr_left
        intro k₀ hk₀
        have hke : k₀ ≠ k := by
          intro hc
          exact hk (by rw [← hc]; exact (mem_dedupFirst _ k₀).mp hk₀)
        rw [valsOf_concat, if_neg (fun hc => hke (eq_of_beq hc).symm),
          List.append_nil]
      · rw [List.map_singleton, valsOf_concat, valsOf_eq_nil k es hk,
          if_pos (beq_self_eq_true k), List.nil_append]
        rfl

/-- The nested fold of _fix_cube_attributes is the fold over the
flattened entry list. -/
theorem fixAttrsMap_eq_entries (cubes : List Cube) :
    fixAttrsMap cubes = (cubes.flatMap (·.attributes)).foldl fixStep [] := by
  unfold fixAttrsMap
  rw [show cubes.flatMap (·.attributes) = (cubes.map (·.attributes)).flatten from rfl]
  rw [List.foldl_flatten, List.foldl_map]

/-- The unified dictionary is the specification dictionary of the
flattened entries. -/
theorem fixAttrsMap_eq_spec (cubes : List Cube) :
    fixAttrsMap cubes = specOfEntries (cubes.flatMap (·.attributes)) := by
  rw [fixAttrsMap_eq_entries, foldl_fixStep_eq_spec]

/-- The keys of a list of pairs built from a key list. -/
theorem map_fst_map_pairs (f : String → Value) :
    ∀ ks : List String, ((ks.map fun k => (k, f k)).map (·.1)) = ks := by
  intro ks
  induction ks with
  | nil => rfl
  | cons k rest ih => simp only [List.map_cons, ih]

/-- The unified dictionary holds each key once. -/
theorem fixAttrsMap_keys_nodup (cubes : List Cube) :
    ((fixAttrsMap cubes).map (·.1)).Nodup := by
  rw [fixAttrsMap_eq_spec]
  unfold specOfEntries
  rw [map_fst_map_pairs]
  exact nodup_dedupFirst _

/-- Entries already present with their own value leave the merge loop
unchanged. -/
theorem foldl_fixStep_fixed :
    ∀ (l acc : List (String × Value)),
      (∀ e ∈ l, List.lookup e.1 acc = some e.2) → l.foldl fixStep acc = acc := by
  intro l
  induction l with
  | nil => intro acc _; rfl
  | cons e rest ih =>
    intro acc h
    obtain ⟨k, v⟩ := e
    rw [List.foldl_cons]
    have he : fixStep acc (k, v) = acc := by
      rw [fixStep_lookup_some acc k v v (h (k, v) (List.mem_cons_self _ _)),
        if_pos rfl]
    rw [he]
    exact ih acc fun e₀ he₀ => h e₀ (List.mem_cons_of_mem _ he₀)

/-- In a dictionary without duplicate keys, lookup recovers every entry. -/
theorem lookup_of_mem_nodup :
    ∀ M : List (String × Value), ((M.map (·.1)).Nodup) →
      ∀ k v, (k, v) ∈ M → List.lookup k M = some v := by
  intro M
  induction M with
  | nil => intro _ k v h; exact absurd h (List.not_mem_nil (k, v))
  | cons e rest ih =>
    intro hnd k v h
    obtain ⟨k₀, v₀⟩ := e
    have hnd₂ : k₀ ∉ rest.map (·.1) ∧ ((rest.map (·.1)).Nodup) := by
      rw [List.map_cons, List.nodup_cons] at hnd
      exact hnd
    rcases List.mem_cons.mp h with h₀ | h₀
    · rw [← h₀]
      simp [List.lookup]
    · have hk : k ≠ k₀ := by
        intro hc
        exact hnd₂.1 (List.mem_map.mpr ⟨(k, v), h₀, hc⟩)
      have hbeq : (k == k₀) = false := beq_eq_false_iff_ne.mpr hk
      rw [List.lookup_cons]
      simp only [hbeq]
      exact ih hnd₂.2 k v h₀

/-- Replaying a duplicate-free dictionary over itself changes nothing. -/
theorem foldl_fixStep_self (M : List (String × Value))
    (hnd : (M.map (·.1)).Nodup) : M.foldl fixStep M = M :=
  foldl_fixStep_fixed M M fun e he => lookup_of_mem_nodup M hnd e.1 e.2 he

/-- Replaying a duplicate-free dictionary into an empty accumulator
reproduces it. -/
theorem foldl_fixStep_fresh :
    ∀ M acc : List (String × Value), ((M.map (·.1)).Nodup) →
      (∀ k ∈ M.map (·.1), List.lookup k acc = none) →
      M.foldl fixStep acc = acc ++ M := by
  intro M
  induction M with
  | nil => intro acc _ _; simp
  | cons e rest ih =>
    intro acc hnd hfresh
    rw [List.foldl_cons]
    have he : fixStep acc e = acc ++ [e] := by
      unfold fixStep
      rw [hfresh e.1 (by simp)]
    rw [he, ih (acc ++ [e]) (by simpa using (List.nodup_cons.mp (by simpa using hnd)).2) ?_]
    · rw [List.append_assoc, List.singleton_append]
    · intro k hkrest
      rw [List.lookup_append, hfresh k (by simp [hkrest]), Option.none_or]
      have hk : k ≠ e.1 := by
        intro hc
        have : e.1 ∈ rest.map (·.1) := by rw [← hc]; exact hkrest
        exact (List.nodup_cons.mp (by simpa using hnd)).1 this
      simp [List.lookup, beq_eq_false_iff_ne.mpr hk]

/-- Folding the same duplicate-free dictionary once per cube over itself
changes nothing. -/
theorem foldl_const_self (M : List (String × Value))
    (hnd : (M.map (·.1)).Nodup) :
    ∀ l : List Cube, l.foldl (fun acc (_ : Cube) => M.foldl fixStep acc) M = M := by
  intro l
  induction l with
  | nil => rfl
  | cons c rest ih =>
    rw [List.foldl_cons, foldl_fixStep_self M hnd]
    exact ih

/-- Unifying an already-unified cube list computes the same dictionary. -/
theorem fixAttrsMap_of_fixed (cubes : List Cube) (hne : cubes ≠ []) :
    fixAttrsMap (_fix_cube_attributes cubes) = fixAttrsMap cubes := by
  rcases cubes with _ | ⟨c, rest⟩
  · exact absurd rfl hne
  · have hnd := fixAttrsMap_keys_nodup (c :: rest)
    set M := fixAttrsMap (c :: rest) with hM
    show fixAttrsMap ((c :: rest).map fun c₀ => { c₀ with attributes := M }) = M
    unfold fixAttrsMap
    rw [List.foldl_map]
    show (c :: rest).foldl (fun acc (_ : Cube) => M.foldl fixStep acc) [] = M
    rw [List.foldl_cons,
      foldl_fixStep_fresh M [] hnd (fun k _ => rfl), List.nil_append]
    exact foldl_const_self M hnd rest

/-- With duplicate-free keys the values of a key are exactly the lookup
result. -/
theorem valsOf_eq_lookup_toList (k : String) :
    ∀ l : List (String × Value), ((l.map (·.1)).Nodup) →
      valsOf k l = (List.lookup k l).toList := by
  intro l
  induction l with
  | nil => intro _; rfl
  | cons e rest ih =>
    intro hnd
    rcases e with ⟨k₀, v₀⟩
    by_cases he : (k₀ == k) = true
    · have hek : k₀ = k := eq_of_beq he
      have hbeq : (k == k₀) = true := by rw [hek]; exact beq_self_eq_true k
      have hrest : valsOf k rest = [] := by
        apply valsOf_eq_nil
        rw [← hek]
        exact (List.nodup_cons.mp (by simpa using hnd)).1
      unfold valsOf
      rw [List.lookup_cons]
      simp only [hbeq, List.filter_cons, he]
      show v₀ :: valsOf k rest = [v₀]
      rw [hrest]
    · have hek : k₀ ≠ k := fun hc => he (by rw [hc]; exact beq_self_eq_true k)
      have hbeq : (k == k₀) = false := beq_eq_false_iff_ne.mpr fun hc => hek hc.symm
      unfold valsOf
      rw [List.lookup_cons]
      simp only [hbeq, List.filter_cons, he]
      exact ih (by simpa using (List.nodup_cons.mp (by simpa using hnd)).2)

/-- With duplicate-free per-cube keys, the per-fragment lookups of the
specification list exactly the values of the flattened entries. -/
theorem valsFor_eq_valsOf (k : String) :
    ∀ cubes : List Cube, (∀ c ∈ cubes, ((c.attributes.map (·.1)).Nodup)) →
      valsFor k cubes = valsOf k (cubes.flatMap (·.attributes)) := by
  intro cubes
  induction cubes with
  | nil => intro _; rfl
  | cons c rest ih =>
    intro h
    have hc : valsOf k c.attributes = (List.lookup k c.attributes).toList :=
      valsOf_eq_lookup_toList k c.attributes (h c (by simp))
    have hr : valsFor k rest = valsOf k (rest.flatMap (·.attributes)) :=
      ih fun c₀ hc₀ => h c₀ (List.mem_cons_of_mem _ hc₀)
    show List.filterMap (fun c₀ => List.lookup k c₀.attributes) (c :: rest) = _
    rw [List.filterMap_cons]
    rw [show (c :: rest).flatMap (·.attributes) =
        c.attributes ++ rest.flatMap (·.attributes) from by simp]
    rw [valsOf_append, hc, ← hr]
    cases List.lookup k c.attributes with
    | none => rfl
    | some v => rfl

/-! ## Claim C3: idempotence of attribute unification -/

/-- C3: running the attribute unifier a second time on the already
unified cubes changes neither the computed dictionary nor any cube. -/
theorem fix_cube_attributes_idempotent :
    ∀ cubes : List Cube,
      _fix_cube_attributes (_fix_cube_attributes cubes) = _fix_cube_attributes cubes := by
  intro cubes
  by_cases hne : cubes = []
  · subst hne; rfl
  · show (_fix_cube_attributes cubes).map
        (fun c => { c with attributes := fixAttrsMap (_fix_cube_attributes cubes) }) =
      _fix_cube_attributes cubes
    rw [fixAttrsMap_of_fixed cubes hne]
    show (cubes.map fun c => { c with attributes := fixAttrsMap cubes }).map
        (fun c => { c with attributes := fixAttrsMap cubes }) =
      cubes.map fun c => { c with attributes := fixAttrsMap cubes }
    rw [List.map_map]
    rfl

/-! ## Claim C4: the attribute unifier contract -/

/-- C4: on cubes whose attribute dictionaries are duplicate-free (as
Python dictionaries are), _fix_cube_attributes assigns to every cube the
unified map of the specification: for each key in order of first
appearance, the value of the first cube holding it, joined with every
later structurally different value in encounter order. -/
theorem fix_cube_attributes_spec :
    ∀ cubes : List Cube, (∀ c ∈ cubes, ((c.attributes.map (·.1)).Nodup)) →
      _fix_cube_attributes cubes =
        cubes.map fun c => { c with attributes := specUnifiedMap cubes } := by
  intro cubes h
  have hmap : fixAttrsMap cubes = specUnifiedMap cubes := by
    rw [fixAttrsMap_eq_spec]
    unfold specUnifiedMap specOfEntries firstSeenKeys
    apply List.map_congr_left
    intro k hk
    rw [valsFor_eq_valsOf k cubes h]
  unfold _fix_cube_attributes
  rw [hmap]

/-- C4, witness: two concrete cubes with a shared key of divergent values
and a key private to the first; the unified map joins the divergent
values in encounter order and is assigned to both cubes. -/
theorem fix_cube_attributes_spec_witness :
    (∀ c ∈ [cubeAttr1, cubeAttr2], ((c.attributes.map (·.1)).Nodup)) ∧
    _fix_cube_attributes [cubeAttr1, cubeAttr2] =
      [cubeAttr1, cubeAttr2].map
        (fun c => { c with attributes := specUnifiedMap [cubeAttr1, cubeAttr2] }) ∧
    specUnifiedMap [cubeAttr1, cubeAttr2] =
      [("k", .str "1;2"), ("a", .str "p")] :=
  ⟨by decide, fix_cube_attributes_spec [cubeAttr1, cubeAttr2] (by decide), by decide⟩

/-! ## Claim C1: concatenate returns one fragment or fails, with
diagnostics -/

/-- The errors of the resolver core are the separated-in-time ValueError
or a re-raised ConcatenateError. -/
theorem resolveCore_error_kind (extrT : Cube → Int → Int → Cube)
    (prim2 : List Cube → Except String Cube) (a b : Cube) (e : PyExc)
    (h : resolveCore extrT prim2 a b = .error e) :
    e = separatedError ∨ e.cls = "ConcatenateError" := by
  unfold resolveCore at h
  split at h
  · split at h <;> exact absurd h (by simp)
  · split at h
    · simp only [Except.error.injEq] at h
      exact Or.inl h.symm
    · split at h
      · split at h
        · exact absurd h (by simp)
        · simp only [Except.error.injEq] at h
          rw [← h]
          exact Or.inr rfl
      · exact absurd h (by simp)

/-- The errors of the overlap resolver are the separated-in-time
ValueError or a re-raised ConcatenateError. -/
theorem resolver_error_kind (extrT : Cube → Int → Int → Cube)
    (prim2 : List Cube → Except String Cube) (c₁ c₂ : Cube) (e : PyExc)
    (h : (_concatenate_overlapping_cubes extrT prim2 c₁ c₂).1 = .error e) :
    e = separatedError ∨ e.cls = "ConcatenateError" := by
  rw [resolver_fst] at h
  by_cases hsw : c₁.timeD.points.headD 0 ≤ c₂.timeD.points.headD 0
  · rw [if_pos hsw] at h
    exact resolveCore_error_kind extrT prim2 c₁ c₂ e h
  · rw [if_neg hsw] at h
    exact resolveCore_error_kind extrT prim2 c₂ c₁ e h

/-- The errors of steps 1 to 3 of concatenate come from the resolver. -/
theorem concatResults_error_kind (prim : List Cube → List Cube)
    (prim2 : List Cube → Except String Cube) (extrT : Cube → Int → Int → Cube)
    (cubes : List Cube) (e : PyExc) (log : List LogEntry)
    (h : concatResults prim prim2 extrT cubes = (.error e, log)) :
    e = separatedError ∨ e.cls = "ConcatenateError" := by
  unfold concatResults at h
  rcases hp : prim (_fix_cube_attributes cubes) with _ | ⟨a, _ | ⟨b, _ | ⟨c, cs⟩⟩⟩ <;>
    rw [hp] at h
  · exact absurd h (by simp)
  · exact absurd h (by simp)
  · replace h : (if (a.time.isSome && b.time.isSome) = true
        then _concatenate_overlapping_cubes extrT prim2 a b
        else (Except.ok [a, b], [])) = (Except.error e, log) := h
    by_cases ht : (a.time.isSome && b.time.isSome) = true
    · rw [if_pos ht] at h
      exact resolver_error_kind extrT prim2 a b e (by rw [h])
    · rw [if_neg ht] at h
      exact absurd h (by simp)
  · exact absurd h (by simp)

/-- Every listed fragment appears in the diagnostic error block, with its
date range when it has a time coordinate. -/
theorem mem_failLogs (results : List Cube) (r : Cube) (hr : r ∈ results) :
    (LogLevel.error, cubeStr r) ∈ failLogs results ∧
    ∀ t, r.time = some t →
      (LogLevel.error, "From " ++ toString (startDate t) ++ " to "
        ++ toString (endDate t)) ∈ failLogs results := by
  unfold failLogs
  constructor
  · apply List.mem_cons_of_mem
    apply List.mem_cons_of_mem
    exact List.mem_flatMap.mpr ⟨r, hr, List.mem_cons_self _ _⟩
  · intro t ht
    apply List.mem_cons_of_mem
    apply List.mem_cons_of_mem
    refine List.mem_flatMap.mpr ⟨r, hr, ?_⟩
    rw [ht]
    simp

/-- C1: for every non-empty fragment list, concatenate either returns one
fragment or raises an error of the concatenation kind; when the failure
is the final more-than-one-irreducible-result check, every remaining
result is logged at error level, with its start and end dates when it
carries a time coordinate, before the raise. -/
theorem concatenate_single_or_fails :
    ∀ (prim : List Cube → List Cube) (prim2 : List Cube → Except String Cube)
      (extrT : Cube → Int → Int → Cube) (cubes : List Cube),
      cubes ≠ [] →
      (∃ c, (concatenate prim prim2 extrT cubes).1 = .ok c) ∨
      (∃ e, (concatenate prim prim2 extrT cubes).1 = .error e ∧
        IsConcatenationError e = true ∧
        (e = cannotConcatenateError →
          ∃ results log₀,
            concatResults prim prim2 extrT cubes = (.ok results, log₀) ∧
            results.length ≠ 1 ∧
            ∀ r ∈ results,
              (LogLevel.error, cubeStr r) ∈ (concatenate prim prim2 extrT cubes).2 ∧
              ∀ t, r.time = some t →
                (LogLevel.error, "From " ++ toString (startDate t) ++ " to "
                  ++ toString (endDate t)) ∈
                  (concatenate prim prim2 extrT cubes).2)) := by
  intro prim prim2 extrT cubes hne
  rcases hcr : concatResults prim prim2 extrT cubes with ⟨res, log⟩
  cases res with
  | error e =>
    have hconc : concatenate prim prim2 extrT cubes = (.error e, log) := by
      unfold concatenate
      rw [hcr]
    right
    refine ⟨e, by rw [hconc], ?_, ?_⟩
    · rcases concatResults_error_kind prim prim2 extrT cubes e log hcr with h | h
      · rw [h]
        decide
      · unfold IsConcatenationError
        rw [show (e.cls == "ConcatenateError") = true from beq_iff_eq.mpr h]
        simp
    · intro hcc
      rcases concatResults_error_kind prim prim2 extrT cubes e log hcr with h | h
      · rw [hcc] at h
        exact absurd h (by decide)
      · rw [hcc] at h
        exact absurd h (by decide)
  | ok results =>
    rcases results with _ | ⟨c, _ | ⟨c₂, rest₂⟩⟩
    · have hconc : concatenate prim prim2 extrT cubes =
          (.error cannotConcatenateError, log ++ failLogs []) := by
        unfold concatenate
        rw [hcr]
      right
      refine ⟨cannotConcatenateError, by rw [hconc], by decide,
        fun _ => ⟨[], log, rfl, by decide, fun r hr => absurd hr (List.not_mem_nil r)⟩⟩
    · have hconc : concatenate prim prim2 extrT cubes = (.ok c, log) := by
        unfold concatenate
        rw [hcr]
      exact Or.inl ⟨c, by rw [hconc]⟩
    · have hconc : concatenate prim prim2 extrT cubes =
          (.error cannotConcatenateError,
            log ++ failLogs (c :: c₂ :: rest₂)) := by
        unfold concatenate
        rw [hcr]
      right
      refine ⟨cannotConcatenateError, by rw [hconc], by decide,
        fun _ => ⟨c :: c₂ :: rest₂, log, rfl, by simp, fun r hr => ?_⟩⟩
      have hm := mem_failLogs (c :: c₂ :: rest₂) r hr
      constructor
      · rw [hconc]
        exact List.mem_append_right log hm.1
      · intro t ht
        rw [hconc]
        exact List.mem_append_right log (hm.2 t ht)

/-- C1, witness: a single concrete cube with the identity structural
primitive; concatenate returns it. -/
theorem concatenate_single_or_fails_witness :
    ([cubeLazy] ≠ []) ∧
    ((∃ c, (concatenate (fun l => l) (fun _ => .error "x") (fun c _ _ => c)
        [cubeLazy]).1 = .ok c) ∨
     (∃ e, (concatenate (fun l => l) (fun _ => .error "x") (fun c _ _ => c)
        [cubeLazy]).1 = .error e ∧
        IsConcatenationError e = true ∧
        (e = cannotConcatenateError →
          ∃ results log₀,
            concatResults (fun l => l) (fun _ => .error "x") (fun c _ _ => c)
              [cubeLazy] = (.ok results, log₀) ∧
            results.length ≠ 1 ∧
            ∀ r ∈ results,
              (LogLevel.error, cubeStr r) ∈
                (concatenate (fun l => l) (fun _ => .error "x") (fun c _ _ => c)
                  [cubeLazy]).2 ∧
              ∀ t, r.time = some t →
                (LogLevel.error, "From " ++ toString (startDate t) ++ " to "
                  ++ toString (endDate t)) ∈
                  (concatenate (fun l => l) (fun _ => .error "x") (fun c _ _ => c)
                    [cubeLazy]).2))) :=
  ⟨by decide,
    concatenate_single_or_fails (fun l => l) (fun _ => .error "x") (fun c _ _ => c)
      [cubeLazy] (by decide)⟩

/-! ## Claim C8: the metadata writer -/

/-- The product sort order is total. -/
instance : IsTotal Product prodLE :=
  ⟨fun p q => by
    unfold prodLE
    rcases lt_trichotomy (prodIdx p) (prodIdx q) with h | h | h
    · exact Or.inl (Or.inl h)
    · rcases le_total (prodDataset p) (prodDataset q) with hd | hd
      · exact Or.inl (Or.inr ⟨h, hd⟩)
      · exact Or.inr (Or.inr ⟨h.symm, hd⟩)
    · exact Or.inr (Or.inl h)⟩

/-- The product sort order is transitive. -/
instance : IsTrans Product prodLE :=
  ⟨fun p q r hpq hqr => by
    unfold prodLE at hpq hqr ⊢
    rcases hpq with h₁ | ⟨h₁, hd₁⟩
    · rcases hqr with h₂ | ⟨h₂, _⟩
      · exact Or.inl (h₁.trans h₂)
      · exact Or.inl (h₂ ▸ h₁)
    · rcases hqr with h₂ | ⟨h₂, hd₂⟩
      · exact Or.inl (h₁ ▸ h₂)
      · exact Or.inr ⟨h₁.trans h₂, hd₁.trans hd₂⟩⟩

/-- Assigning a fresh key appends the entry. -/
theorem upsert_not_mem {β : Type} (k : String) (v : β) :
    ∀ l : List (String × β), k ∉ l.map (·.1) → upsert l k v = l ++ [(k, v)] := by
  intro l
  induction l with
  | nil => intro _; rfl
  | cons e rest ih =>
    intro h
    obtain ⟨k₀, v₀⟩ := e
    have hk : (k₀ == k) = false :=
      beq_eq_false_iff_ne.mpr fun hc => h (by simp [hc])
    unfold upsert
    rw [if_neg (by simp [hk])]
    rw [ih fun hc => h (by rw [List.map_cons]; exact List.mem_cons_of_mem _ hc)]
    rfl

/-- Building the manifest mapping over products with distinct filenames
lists one entry per product, in order. -/
theorem foldl_upsert_map (f : Product → List (String × Value)) :
    ∀ (l : List Product) (md : List (String × List (String × Value))),
      (∀ p ∈ l, p.filename ∉ md.map (·.1)) →
      ((l.map (·.filename)).Nodup) →
      l.foldl (fun md p => upsert md p.filename (f p)) md =
        md ++ l.map fun p => (p.filename, f p) := by
  intro l
  induction l with
  | nil => intro md _ _; simp
  | cons p rest ih =>
    intro md hfresh hnd
    have hnd' : p.filename ∉ rest.map (·.filename) ∧
        ((rest.map (·.filename)).Nodup) := by
      rw [List.map_cons, List.nodup_cons] at hnd
      exact hnd
    rw [List.foldl_cons, upsert_not_mem _ _ md (hfresh p (by simp))]
    rw [ih (md ++ [(p.filename, f p)]) ?_ hnd'.2]
    · rw [List.append_assoc, List.singleton_append]
      rfl
    · intro q hq
      rw [List.map_append]
      simp only [List.mem_append, List.map_cons, List.map_nil,
        List.mem_singleton, not_or]
      refine ⟨hfresh q (List.mem_cons_of_mem _ hq), fun hc => ?_⟩
      exact hnd'.1 (List.mem_map.mpr ⟨q, hq, hc⟩)

/-- The manifest of one group: the metadata.yml path of the directory of
the group, and the mapping built from the sorted group. -/
theorem groupOutputs_manifest (wn : Bool) (g : List Product) :
    (groupOutputs wn g).2.1 =
      ⟨joinPath (dirname (g.headD default).filename) "metadata.yml",
        (List.insertionSort prodLE g).foldl
          (fun md p => upsert md p.filename (normalizeExp p.attributes)) []⟩ := by
  unfold groupOutputs
  cases wn <;> rfl

/-- C8: write_metadata writes exactly one metadata.yml manifest per
adjacent directory group, named after the directory of the group, and
the entries of each manifest are the products of the group in sorted
(recipe_dataset_index or 1e6, dataset or empty) order, provided group
filenames are distinct. -/
theorem write_metadata_groups_sorted :
    ∀ (products : List Product) (write_ncl : Bool),
      (∀ g ∈ groupRuns (fun p => dirname p.filename) products,
        ((g.map (·.filename)).Nodup)) →
      List.Forall₂
        (fun g m =>
          m.path = joinPath (dirname (g.headD default).filename) "metadata.yml" ∧
          ∃ gs, gs.Perm g ∧ List.Sorted prodLE gs ∧
            m.entries.map (·.1) = gs.map (·.filename))
        (groupRuns (fun p => dirname p.filename) products)
        (write_metadata products write_ncl).manifests := by
  intro products wn h
  have hman : (write_metadata products wn).manifests =
      (groupRuns (fun p => dirname p.filename) products).map
        (fun g => (groupOutputs wn g).2.1) := rfl
  rw [hman, List.forall₂_map_right_iff]
  rw [List.forall₂_same]
  intro g hg
  rw [groupOutputs_manifest]
  refine ⟨rfl, List.insertionSort prodLE g, List.perm_insertionSort prodLE g,
    List.sorted_insertionSort prodLE g, ?_⟩
  have hnd : ((List.insertionSort prodLE g).map (·.filename)).Nodup :=
    (((List.perm_insertionSort prodLE g).map (·.filename)).nodup_iff).mpr (h g hg)
  show ((List.insertionSort prodLE g).foldl
      (fun md p => upsert md p.filename (normalizeExp p.attributes)) []).map (·.1) =
    (List.insertionSort prodLE g).map (·.filename)
  rw [foldl_upsert_map _ _ [] (by intro p _; simp) hnd]
  rw [List.nil_append, List.map_map]
  rfl

/-- C8, witness: three concrete products in two directories; the dir A
manifest lists the index-1 product before the index-2 product, and
exactly two manifest files are produced. -/
theorem write_metadata_groups_sorted_witness :
    (∀ g ∈ groupRuns (fun p => dirname p.filename) [prodA2, prodA1, prodB],
      ((g.map (·.filename)).Nodup)) ∧
    List.Forall₂
      (fun g m =>
        m.path = joinPath (dirname (g.headD default).filename) "metadata.yml" ∧
        ∃ gs, gs.Perm g ∧ List.Sorted prodLE gs ∧
          m.entries.map (·.1) = gs.map (·.filename))
      (groupRuns (fun p => dirname p.filename) [prodA2, prodA1, prodB])
      (write_metadata [prodA2, prodA1, prodB] false).manifests ∧
    (write_metadata [prodA2, prodA1, prodB] false).manifests.map
        (fun m => (m.path, m.entries.map (·.1))) =
      [("A/metadata.yml", ["A/t1.nc", "A/t2.nc"]),
       ("B/metadata.yml", ["B/t3.nc"])] ∧
    (write_metadata [prodA2, prodA1, prodB] false).output_files =
      ["A/metadata.yml", "B/metadata.yml"] :=
  ⟨by decide, write_metadata_groups_sorted [prodA2, prodA1, prodB] false (by decide),
    by decide, by decide⟩

end Esm
